import Mathlib

/-!
Verification of the Stardust-CLI batch-execution and response-recovery core.

The development shallowly embeds, over `List Char` / `String` and explicit
state, the functions the specification describes:

* `parseBatchClassifierResponse` and `parseClassifierResponse`, taken from
  the inline definitions in the repository's gemini-parsing test file;
* the truncated-JSON recovery step and the regex fallback scan used by the
  batch parser;
* the inter-batch delay structure of `classifyAndAddRepos` from
  `src/services/classifier.ts`;
* the rate-limiter utilities (`retryWithBackoff`, `runWithConcurrency`),
  whose implementation file is absent from the sources and is therefore
  modelled from the specification text (marked `Modelled from the spec:`).

JavaScript exceptions are modelled with `Option`/`Except`: a `none` result
of a total Lean function stands for an uncaught exception, an
`Except.error` for a caught one carrying the state at the throw point.
JSON numbers are represented exactly as a decimal mantissa and exponent
(`m * 10 ^ e`); the double-precision rounding performed by a JavaScript
runtime is not modelled, and no claim below depends on it.
-/

set_option maxHeartbeats 1000000

namespace Stardust

/-- A JSON value as produced by `JSON.parse`.  Numbers carry the literal's
integer mantissa `m` and decimal exponent `e`, denoting `m * 10 ^ e`;
object fields are kept in source order (later duplicates shadow earlier
ones through `getField`). -/
inductive Json where
  | null : Json
  | bool (b : Bool) : Json
  | num (m : Int) (e : Int) : Json
  | str (s : String) : Json
  | arr (elems : List Json) : Json
  | obj (fields : List (String × Json)) : Json

mutual

/-- Equality of JSON values, used for `Map` keys.  JavaScript's
SameValueZero compares objects and arrays by reference; structural
equality is used here instead, which coincides on the primitive keys
every claim below exercises. -/
def Json.beq : Json → Json → Bool
  | .null, .null => true
  | .bool a, .bool b => a == b
  | .num m e, .num m' e' => m == m' && e == e'
  | .str a, .str b => a == b
  | .arr xs, .arr ys => beqElems xs ys
  | .obj fs, .obj gs => beqFields fs gs
  | _, _ => false

def beqElems : List Json → List Json → Bool
  | [], [] => true
  | x :: xs, y :: ys => Json.beq x y && beqElems xs ys
  | _, _ => false

def beqFields : List (String × Json) → List (String × Json) → Bool
  | [], [] => true
  | (k, v) :: fs, (l, w) :: gs => k == l && Json.beq v w && beqFields fs gs
  | _, _ => false

end

mutual

theorem Json.beq_refl : ∀ a : Json, Json.beq a a = true
  | .null => rfl
  | .bool b => by simp [Json.beq]
  | .num m e => by simp [Json.beq]
  | .str s => by simp [Json.beq]
  | .arr xs => by simpa [Json.beq] using beqElems_refl xs
  | .obj fs => by simpa [Json.beq] using beqFields_refl fs

theorem beqElems_refl : ∀ xs : List Json, beqElems xs xs = true
  | [] => rfl
  | x :: xs => by
      simp only [beqElems, Bool.and_eq_true]
      exact ⟨Json.beq_refl x, beqElems_refl xs⟩

theorem beqFields_refl : ∀ fs : List (String × Json), beqFields fs fs = true
  | [] => rfl
  | (k, v) :: fs => by
      simp only [beqFields, Bool.and_eq_true, beq_self_eq_true, true_and]
      exact ⟨Json.beq_refl v, beqFields_refl fs⟩

end

/-- JavaScript truthiness of a JSON value (`null`, `false`, `0` and `""`
are falsy; arrays and objects are always truthy). -/
def Json.truthy : Json → Bool
  | .null => false
  | .bool b => b
  | .num m _ => m != 0
  | .str s => s != ""
  | .arr _ => true
  | .obj _ => true

/-- Property access `o.k` on a parsed object: the last occurrence of a
duplicated key wins, as in the object built by `JSON.parse`. -/
def getField (fields : List (String × Json)) (k : String) : Option Json :=
  match fields with
  | [] => none
  | (k', v) :: rest =>
      match getField rest k with
      | some w => some w
      | none => if k' = k then some v else none

/-- Field access on an arbitrary JSON value; only objects have fields
(`v.k` is `undefined` on the rest — `null` raising a `TypeError` instead is
handled at each use site). -/
def Json.getF : Json → String → Option Json
  | .obj fields, k => getField fields k
  | _, _ => none

/-- Whitespace accepted between JSON tokens by `JSON.parse` (only these
four characters, per the JSON grammar). -/
def isJsonWs (c : Char) : Bool :=
  c = ' ' || c = '\t' || c = '\n' || c = '\r'

/-- The whitespace class used by JavaScript's `String.prototype.trim` and
by `\s` in regular expressions (the common members; exotic Unicode `Zs`
code points do not occur in any input considered here). -/
def isJsWs (c : Char) : Bool :=
  c = ' ' || c = '\t' || c = '\n' || c = '\r' || c = '\x0b' || c = '\x0c' ||
  c = '\u00A0' || c = '\uFEFF' || c = '\u2028' || c = '\u2029'

/-- `String.prototype.trim` on a character list. -/
def jsTrimChars (cs : List Char) : List Char :=
  ((cs.dropWhile isJsWs).reverse.dropWhile isJsWs).reverse

def skipJsonWs (cs : List Char) : List Char :=
  cs.dropWhile isJsonWs

/-- Decimal digit value, if `c` is a digit. -/
def digitVal? (c : Char) : Option Nat :=
  if '0' ≤ c ∧ c ≤ '9' then some (c.toNat - '0'.toNat) else none

def digitsToNat (ds : List Char) : Nat :=
  ds.foldl (fun acc c => acc * 10 + (c.toNat - '0'.toNat)) 0

def isDigit (c : Char) : Bool := c.isDigit

/-- Hexadecimal digit value, if any. -/
def hexVal? (c : Char) : Option Nat :=
  if '0' ≤ c ∧ c ≤ '9' then some (c.toNat - '0'.toNat)
  else if 'a' ≤ c ∧ c ≤ 'f' then some (c.toNat - 'a'.toNat + 10)
  else if 'A' ≤ c ∧ c ≤ 'F' then some (c.toNat - 'A'.toNat + 10)
  else none

/-- Body of a JSON string literal after the opening quote: returns the
decoded content and the remainder after the closing quote.  The escapes of
the JSON grammar are decoded; a `\uXXXX` escape denoting a surrogate code
unit (which no input below contains) is rejected. -/
def parseStringRest : List Char → Option (List Char × List Char)
  | [] => none
  | '"' :: rest => some ([], rest)
  | '\\' :: e :: rest =>
      match e with
      | '"' => (parseStringRest rest).map (fun (s, r) => ('"' :: s, r))
      | '\\' => (parseStringRest rest).map (fun (s, r) => ('\\' :: s, r))
      | '/' => (parseStringRest rest).map (fun (s, r) => ('/' :: s, r))
      | 'b' => (parseStringRest rest).map (fun (s, r) => ('\x08' :: s, r))
      | 'f' => (parseStringRest rest).map (fun (s, r) => ('\x0c' :: s, r))
      | 'n' => (parseStringRest rest).map (fun (s, r) => ('\n' :: s, r))
      | 'r' => (parseStringRest rest).map (fun (s, r) => ('\r' :: s, r))
      | 't' => (parseStringRest rest).map (fun (s, r) => ('\t' :: s, r))
      | 'u' =>
          match rest with
          | h1 :: h2 :: h3 :: h4 :: rest' =>
              match hexVal? h1, hexVal? h2, hexVal? h3, hexVal? h4 with
              | some a, some b, some c, some d =>
                  let n := ((a * 16 + b) * 16 + c) * 16 + d
                  if n < 0xd800 ∨ (0xdfff < n ∧ n < 0x110000) then
                    (parseStringRest rest').map
                      (fun (s, r) => (Char.ofNat n :: s, r))
                  else none
              | _, _, _, _ => none
          | _ => none
      | _ => none
  | c :: rest =>
      if c.toNat < 0x20 then none
      else (parseStringRest rest).map (fun (s, r) => (c :: s, r))

/-- A JSON number literal starting at `cs` (sign and first digit
included): mantissa/exponent representation and the remainder. -/
def parseNumber (cs : List Char) : Option (Json × List Char) :=
  let (neg, cs1) :=
    match cs with
    | '-' :: rest => (true, rest)
    | _ => (false, cs)
  let intDigits := cs1.takeWhile isDigit
  let afterInt := cs1.drop intDigits.length
  if intDigits.isEmpty then none
  else if intDigits.length > 1 ∧ intDigits.headD ' ' = '0' then none
  else
    let (fracDigits, afterFrac) :=
      match afterInt with
      | '.' :: rest =>
          (rest.takeWhile isDigit, rest.drop (rest.takeWhile isDigit).length)
      | _ => ([], afterInt)
    if afterInt.headD ' ' = '.' ∧ fracDigits.isEmpty then none
    else
      let expPart : Option (Int × List Char) :=
        match afterFrac with
        | c :: rest =>
            if c = 'e' ∨ c = 'E' then
              let (eneg, rest1) :=
                match rest with
                | '+' :: r => (false, r)
                | '-' :: r => (true, r)
                | _ => (false, rest)
              let expDigits := rest1.takeWhile isDigit
              if expDigits.isEmpty then none
              else
                let ev : Int := Int.ofNat (digitsToNat expDigits)
                some (if eneg then -ev else ev, rest1.drop expDigits.length)
            else some (0, afterFrac)
        | [] => some (0, afterFrac)
      match expPart with
      | none => none
      | some (ev, rest) =>
          let mant : Nat := digitsToNat (intDigits ++ fracDigits)
          let m : Int := if neg then -(Int.ofNat mant) else Int.ofNat mant
          some (.num m (ev - Int.ofNat fracDigits.length), rest)

mutual

/-- A JSON value at the head of the input (leading whitespace allowed),
with explicit fuel; models the recursive descent of `JSON.parse`. -/
def parseVal : Nat → List Char → Option (Json × List Char)
  | 0, _ => none
  | fuel + 1, cs =>
      match skipJsonWs cs with
      | [] => none
      | '"' :: rest =>
          (parseStringRest rest).map (fun (s, r) => (.str (String.mk s), r))
      | '[' :: rest => parseArrElems fuel (skipJsonWs rest)
      | '\x7b' :: rest => parseObjMembers fuel (skipJsonWs rest)
      | 't' :: 'r' :: 'u' :: 'e' :: rest => some (.bool true, rest)
      | 'f' :: 'a' :: 'l' :: 's' :: 'e' :: rest => some (.bool false, rest)
      | 'n' :: 'u' :: 'l' :: 'l' :: rest => some (.null, rest)
      | cs' => parseNumber cs'

/-- Elements of an array, positioned after `[` (whitespace skipped). -/
def parseArrElems : Nat → List Char → Option (Json × List Char)
  | 0, _ => none
  | fuel + 1, cs =>
      match cs with
      | ']' :: rest => some (.arr [], rest)
      | _ =>
          match parseVal fuel cs with
          | none => none
          | some (v, r) => parseArrTail fuel v [] r

/-- Remaining elements of an array after at least one parsed element. -/
def parseArrTail : Nat → Json → List Json → List Char → Option (Json × List Char)
  | 0, _, _, _ => none
  | fuel + 1, v, acc, cs =>
      match skipJsonWs cs with
      | ']' :: rest => some (.arr (v :: acc).reverse, rest)
      | ',' :: rest =>
          match parseVal fuel rest with
          | none => none
          | some (w, r) => parseArrTail fuel w (v :: acc) r
      | _ => none

/-- Members of an object, positioned after the opening brace
(whitespace skipped). -/
def parseObjMembers : Nat → List Char → Option (Json × List Char)
  | 0, _ => none
  | fuel + 1, cs =>
      match cs with
      | '\x7d' :: rest => some (.obj [], rest)
      | '"' :: rest =>
          match parseStringRest rest with
          | none => none
          | some (k, r) => parseObjVal fuel (String.mk k) [] r
      | _ => none

/-- The value of a member whose key has just been read. -/
def parseObjVal : Nat → String → List (String × Json) → List Char →
    Option (Json × List Char)
  | 0, _, _, _ => none
  | fuel + 1, k, acc, cs =>
      match skipJsonWs cs with
      | ':' :: rest =>
          match parseVal fuel rest with
          | none => none
          | some (v, r) => parseObjTail fuel ((k, v) :: acc) r
      | _ => none

/-- After a member: either a comma and another member or the closing
brace. -/
def parseObjTail : Nat → List (String × Json) → List Char →
    Option (Json × List Char)
  | 0, _, _ => none
  | fuel + 1, acc, cs =>
      match skipJsonWs cs with
      | '\x7d' :: rest => some (.obj acc.reverse, rest)
      | ',' :: rest =>
          match skipJsonWs rest with
          | '"' :: rest' =>
              match parseStringRest rest' with
              | none => none
              | some (k, r) => parseObjVal fuel (String.mk k) acc r
          | _ => none
      | _ => none

end

/-- `JSON.parse`: parse a complete document, allowing surrounding
whitespace; `none` models a thrown `SyntaxError`. -/
def jsonParse (s : String) : Option Json :=
  match parseVal (2 * s.length + 4) s.data with
  | none => none
  | some (v, rest) => if (skipJsonWs rest).isEmpty then some v else none

/-- A category catalog entry (`src/types`). -/
structure Category where
  name : String
  description : String
  keywords : List String

/-- The membership test backing `validCategoryNames = new Set(categories.map((c) => c.name))`. -/
def validCategoryNames (cats : List Category) : List String :=
  cats.map (fun c => c.name)

/-- `categories[0]?.name || "Lang: ETC"`: the batch parser's default
category (the literal fallback fires when the catalog is empty or its
first name is the empty string). -/
def defaultCategory (cats : List Category) : String :=
  match cats with
  | [] => "Lang: ETC"
  | c :: _ => if c.name = "" then "Lang: ETC" else c.name

/-- The result `Map<string, string[]>`, in insertion order. -/
abbrev RMap := List (Json × List String)

/-- `Map.prototype.has`. -/
def rhas (m : RMap) (k : Json) : Bool :=
  m.any (fun p => Json.beq p.1 k)

/-- `Map.prototype.get` (`none` is `undefined`). -/
def rget (m : RMap) (k : Json) : Option (List String) :=
  match m with
  | [] => none
  | p :: rest => if Json.beq p.1 k then some p.2 else rget rest k

/-- `Map.prototype.set`: replaces the value at an existing key in place
(keeping the original key and position), otherwise appends. -/
def rset (m : RMap) (k : Json) (v : List String) : RMap :=
  match m with
  | [] => [(k, v)]
  | (k', v') :: rest =>
      if Json.beq k' k then (k', v) :: rest else (k', v') :: rset rest k v

/-- `String.prototype.lastIndexOf` for a single character (`none` is
`-1`). -/
def lastIndexOfChar (c : Char) : List Char → Option Nat
  | [] => none
  | x :: xs =>
      match lastIndexOfChar c xs with
      | some i => some (i + 1)
      | none => if x = c then some 0 else none

/-- The truncated-JSON recovery of `parseBatchClassifierResponse` (the
body of `if (!jsonStr.endsWith("}")) { ... }`): count the four bracket
characters, cut at the last `}` when it sits at a positive index and is
followed by a `{` but no further `}`, then append the bracket and brace
deficits. -/
def recoverTruncated (cs : List Char) : List Char :=
  let openBraces := cs.count '\x7b'
  let closeBraces := cs.count '\x7d'
  let openBrackets := cs.count '['
  let closeBrackets := cs.count ']'
  let cs1 :=
    match lastIndexOfChar '\x7d' cs with
    | some i =>
        if 0 < i then
          let afterLast := cs.drop (i + 1)
          if afterLast.contains '\x7b' && !afterLast.contains '\x7d' then
            cs.take (i + 1)
          else cs
        else cs
    | none => cs
  cs1 ++ List.replicate (openBrackets - closeBrackets) ']' ++
    List.replicate (openBraces - closeBraces) '\x7d'

/-- The string handed to `JSON.parse` by the batch parser: the trimmed
text, repaired first when it does not end in `}`. -/
def prepareJsonText (cs : List Char) : List Char :=
  if cs.getLast? = some '\x7d' then cs else recoverTruncated cs

/-- The JSON path of the batch parser up to the `results` extraction:
`some rs` when `JSON.parse` succeeds on the prepared text and the parsed
value has a truthy array `results` field, `none` when any of that throws. -/
def jsonResultsOf (text : String) : Option (List Json) :=
  match jsonParse (String.mk (prepareJsonText (jsTrimChars text.data))) with
  | some (.obj fs) =>
      match getField fs "results" with
      | some (.arr rs) => some rs
      | _ => none
  | _ => none

/-- `result.categories.filter((c) => validCategoryNames.has(c)).slice(0, maxCategoriesPerRepo)`:
only strings can be members of the name set, so non-string elements are
dropped by the filter. -/
def filterValidCats (cats : List Category) (maxPerRepo : Nat)
    (elems : List Json) : List String :=
  (elems.filterMap (fun c =>
    match c with
    | .str s => if (validCategoryNames cats).contains s then some s else none
    | _ => none)).take maxPerRepo

/-- The `for (const result of parsed.results)` loop.  A `null` element
throws on `result.id` (TypeError), carrying the partial map to the catch
handler; any other non-object yields `undefined` (falsy) and is skipped. -/
def processEntries (cats : List Category) (maxPerRepo : Nat) :
    List Json → RMap → Except RMap RMap
  | [], acc => .ok acc
  | .null :: _, acc => .error acc
  | j :: rest, acc =>
      match Json.getF j "id" with
      | none => processEntries cats maxPerRepo rest acc
      | some idv =>
          if !idv.truthy then processEntries cats maxPerRepo rest acc
          else
            match Json.getF j "categories" with
            | some (.arr cs) =>
                let valid := filterValidCats cats maxPerRepo cs
                processEntries cats maxPerRepo rest
                  (rset acc idv
                    (if valid.isEmpty then [defaultCategory cats] else valid))
            | _ => processEntries cats maxPerRepo rest acc

/-- The `for (const repo of repos)` fill loop: every requested identifier
not yet covered receives the single default-category entry. -/
def fillDefaults (repos : List String) (cats : List Category) (m : RMap) :
    RMap :=
  repos.foldl
    (fun acc id =>
      if rhas acc (.str id) then acc
      else rset acc (.str id) [defaultCategory cats]) m

/-- The whole `try` block of `parseBatchClassifierResponse`: `.error m`
models a thrown exception with `resultMap` holding `m` at the throw
point. -/
def tryPass (text : String) (repos : List String) (cats : List Category)
    (maxPerRepo : Nat) : Except RMap RMap :=
  match jsonResultsOf text with
  | none => .error []
  | some rs =>
      match processEntries cats maxPerRepo rs [] with
      | .error m => .error m
      | .ok m => .ok (fillDefaults repos cats m)

/-- Consume an expected literal character sequence. -/
def stripLit : List Char → List Char → Option (List Char)
  | [], cs => some cs
  | _ :: _, [] => none
  | l :: ls, c :: cs => if c = l then stripLit ls cs else none

def expectChar (c : Char) : List Char → Option (List Char)
  | [] => none
  | x :: xs => if x = c then some xs else none

def skipWsJs (cs : List Char) : List Char :=
  cs.dropWhile isJsWs

/-- The suffix of the fallback pattern after the backtracking point:
`"categories"\s*:\s*\[([^\]]*)\]`.  Both quantified classes are
deterministic here (each stops at the first excluded character). -/
def matchTail (cs : List Char) : Option (List Char × List Char) :=
  match stripLit "\"categories\"".data cs with
  | none => none
  | some cs1 =>
      match expectChar ':' (skipWsJs cs1) with
      | none => none
      | some cs2 =>
          match expectChar '[' (skipWsJs cs2) with
          | none => none
          | some cs3 =>
              let cap := cs3.takeWhile (fun c => c != ']')
              match expectChar ']' (cs3.drop cap.length) with
              | none => none
              | some rest => some (cap, rest)

/-- Backtracking for the greedy `[^}]*`: try the longest admissible
consumption first (`k` characters, all of them non-`}` at the call site),
shrinking until the tail matches. -/
def tryTailFrom (cs : List Char) : Nat → Option (List Char × List Char)
  | 0 => matchTail cs
  | k + 1 =>
      match matchTail (cs.drop (k + 1)) with
      | some r => some r
      | none => tryTailFrom cs k

/-- One attempt of the fallback pattern
`/"id"\s*:\s*"([^"]+)"[^}]*"categories"\s*:\s*\[([^\]]*)\]/` anchored at
the head of `cs`: the two captures and the remainder after the match. -/
def matchAt (cs : List Char) : Option (String × String × List Char) :=
  match stripLit "\"id\"".data cs with
  | none => none
  | some cs1 =>
      match expectChar ':' (skipWsJs cs1) with
      | none => none
      | some cs2 =>
          match expectChar '"' (skipWsJs cs2) with
          | none => none
          | some cs3 =>
              let idCap := cs3.takeWhile (fun c => c != '"')
              if idCap.isEmpty then none
              else
                match expectChar '"' (cs3.drop idCap.length) with
                | none => none
                | some cs4 =>
                    let run := (cs4.takeWhile (fun c => c != '\x7d')).length
                    match tryTailFrom cs4 run with
                    | none => none
                    | some (cap, rest) =>
                        some (String.mk idCap, String.mk cap, rest)

/-- Leftmost match at or after the head of `cs` (the regex engine slides
the start position forward until the pattern matches). -/
def findFrom : List Char → Option (String × String × List Char)
  | [] => none
  | c :: tl =>
      match matchAt (c :: tl) with
      | some r => some r
      | none => findFrom tl

/-- The `while ((match = linePattern.exec(text)) !== null)` loop: all
matches in order, each search resuming after the previous match. -/
def scanMatchesAux : Nat → List Char → List (String × String)
  | 0, _ => []
  | fuel + 1, cs =>
      match findFrom cs with
      | none => []
      | some (id, cap, rest) => (id, cap) :: scanMatchesAux fuel rest

def scanMatches (text : String) : List (String × String) :=
  scanMatchesAux (text.length + 1) text.data

/-- `String.prototype.split(",")`. -/
def splitCommaAux : List Char → List Char → List (List Char)
  | [], acc => [acc.reverse]
  | ',' :: rest, acc => acc.reverse :: splitCommaAux rest []
  | c :: rest, acc => splitCommaAux rest (c :: acc)

def splitComma (cs : List Char) : List (List Char) :=
  splitCommaAux cs []

/-- Processing of one scan capture:
`categoriesStr.split(",").map((s) => s.trim().replace(/"/g, "")).filter((c) => validCategoryNames.has(c)).slice(0, maxCategoriesPerRepo)`. -/
def scanCats (cats : List Category) (maxPerRepo : Nat) (capture : String) :
    List String :=
  (((splitComma capture.data).map
      (fun p => String.mk ((jsTrimChars p).filter (fun c => c != '"')))).filter
    (fun s => (validCategoryNames cats).contains s)).take maxPerRepo

/-- Folding the scan matches into the result map: a match claims its
identifier only when its filtered list is non-empty and the identifier is
not already present. -/
def applyScanMatches (cats : List Category) (maxPerRepo : Nat) :
    List (String × String) → RMap → RMap
  | [], m => m
  | (id, cap) :: rest, m =>
      let cs := scanCats cats maxPerRepo cap
      applyScanMatches cats maxPerRepo rest
        (if !cs.isEmpty && !rhas m (.str id) then rset m (.str id) cs else m)

/-- The whole `catch` block: pattern-scan of the raw (untrimmed) text,
then the default fill, starting from the partial map built before the
throw. -/
def scanPass (text : String) (repos : List String) (cats : List Category)
    (maxPerRepo : Nat) (m0 : RMap) : RMap :=
  fillDefaults repos cats (applyScanMatches cats maxPerRepo (scanMatches text) m0)

/-- `parseBatchClassifierResponse` from the gemini parsing tests: the
JSON path, falling back to the pattern scan on any exception.  The Lean
function is total: the source function never lets an exception escape. -/
def parseBatchClassifierResponse (text : String) (repos : List String)
    (cats : List Category) (maxPerRepo : Nat) : RMap :=
  match tryPass text repos cats maxPerRepo with
  | .ok m => m
  | .error m0 => scanPass text repos cats maxPerRepo m0

/-- The `{ categories, reason }` record returned by the single-item
parser. -/
structure SingleResult where
  categories : List String
  reason : String
  deriving DecidableEq

/-- `parseClassifierResponse` from the gemini parsing tests.  `none`
models an uncaught exception: with an empty catalog both the success path
(`validatedCategories.push(categories[0].name)`) and the catch handler
(`categories: [categories[0].name]`) dereference `categories[0]`. -/
def parseClassifierResponse (text : String) (cats : List Category)
    (maxPerRepo : Nat) : Option SingleResult :=
  let fallback : Option SingleResult :=
    match cats with
    | [] => none
    | c :: _ => some ⟨[c.name], "Parsing failed, using default category"⟩
  match jsonParse (String.mk (jsTrimChars text.data)) with
  | none => fallback
  | some parsed =>
      match parsed with
      | .obj fs =>
          match getField fs "categories" with
          | some (.arr cs) =>
              let v := filterValidCats cats maxPerRepo cs
              if v.isEmpty then
                match cats with
                | [] => none
                | c :: _ => some ⟨[c.name], ""⟩
              else some ⟨v, ""⟩
          | _ => fallback
      | _ => fallback

/-- Modelled from the spec: the retry policy value struct
`RetryPolicy{maxRetries, initialDelayMs, maxDelayMs}` of §6; the
implementation file `src/utils/rate-limiter.ts` is absent from the
sources (only its tests are present). -/
structure RetryPolicy where
  maxRetries : Nat
  initialDelayMs : Nat
  maxDelayMs : Nat

/-- Modelled from the spec: the delay waited before the `k`-th retry,
`min(initialDelayMs * 2^(k-1), maxDelayMs)` (§3, RetryPolicy invariant). -/
def backoffDelay (p : RetryPolicy) (k : Nat) : Nat :=
  min (p.initialDelayMs * 2 ^ (k - 1)) p.maxDelayMs

/-- Modelled from the spec: the attempt loop of `retryWithBackoff` (§4.2).
`op k` is the outcome of attempt `k` (0-indexed); `rem` counts the retries
still allowed.  Returns the final outcome, the number of attempts made,
and the list of backoff delays waited (in order). -/
def retryGo {E A : Type} (op : Nat → Except E A) (p : RetryPolicy) :
    Nat → Nat → Except E A × Nat × List Nat
  | k, 0 => (op k, k + 1, [])
  | k, rem + 1 =>
      match op k with
      | .ok a => (.ok a, k + 1, [])
      | .error _ =>
          let r := retryGo op p (k + 1) rem
          (r.1, r.2.1, backoffDelay p (k + 1) :: r.2.2)

/-- Modelled from the spec: `retryWithBackoff(operation, policy)` — attempt
1 runs immediately; on failure up to `maxRetries` retries follow, each
after the computed backoff delay; the last error propagates unchanged
(§4.2). -/
def retryWithBackoff {E A : Type} (op : Nat → Except E A) (p : RetryPolicy) :
    Except E A × Nat × List Nat :=
  retryGo op p 0 p.maxRetries

/-- Modelled from the spec: the completion loop of `runWithConcurrency`
(§4.3).  `order` is the order in which admitted worker calls finish; each
finished call writes its result into the slot of its item's input index,
so the output order matches the input order.  Slots, worker-call count,
or the first error (fail-fast). -/
def cslots {α β ε : Type} (items : List α) (worker : α → Except ε β) :
    List Nat → List (Option β) → Nat → Except ε (List (Option β) × Nat)
  | [], slots, calls => .ok (slots, calls)
  | j :: rest, slots, calls =>
      if h : j < items.length then
        match worker (items.get ⟨j, h⟩) with
        | .ok b => cslots items worker rest (slots.set j (some b)) (calls + 1)
        | .error e => .error e
      else cslots items worker rest slots calls

/-- Modelled from the spec: `runWithConcurrency(items, worker, limit)`.
The admission bound `limit` restricts which completion orders can occur
but not the value computed, so it is quantified away here: the model takes
the completion order as an explicit parameter. -/
def runWithConcurrency {α β ε : Type} (items : List α)
    (worker : α → Except ε β) (limit : Nat) (order : List Nat) :
    Except ε (List (Option β) × Nat) :=
  let _ := limit
  cslots items worker order (List.replicate items.length none) 0

/-- One observable step of the `classifyAndAddRepos` batch loop. -/
inductive RunEvent where
  | batch (i : Nat) : RunEvent
  | delay : RunEvent
  deriving DecidableEq

def RunEvent.isDelay : RunEvent → Bool
  | .delay => true
  | .batch _ => false

/-- `Math.ceil(repos.length / batchSize)` for a positive batch size. -/
def totalBatches (n batchSize : Nat) : Nat :=
  (n + batchSize - 1) / batchSize

/-- The control flow of the `for (let batchIdx = ...)` loop of
`classifyAndAddRepos` (`src/services/classifier.ts`), as the sequence of
its observable batch/delay steps.  `ok i` tells whether batch `i`'s
classification succeeded: on failure the loop `continue`s, skipping the
inter-batch delay as well. -/
def classifyAndAddReposEvents (n batchSize : Nat) (ok : Nat → Bool) :
    List RunEvent :=
  ((List.range (totalBatches n batchSize)).map (fun i =>
    if ok i then
      RunEvent.batch i ::
        (if i < totalBatches n batchSize - 1 then [RunEvent.delay] else [])
    else [RunEvent.batch i])).flatten

/-- Number of inter-batch delays inserted by a run. -/
def countDelays (events : List RunEvent) : Nat :=
  events.countP RunEvent.isDelay

/-! ### Map lemmas -/

theorem rhas_rset_self (m : RMap) (k : Json) (v : List String) :
    rhas (rset m k v) k = true := by
  induction m with
  | nil => simp [rhas, rset, Json.beq_refl]
  | cons p rest ih =>
      obtain ⟨k', v'⟩ := p
      by_cases h : Json.beq k' k
      · simp [rhas, rset, h]
      · simp only [rset, h, if_false, Bool.false_eq_true]
        simp only [rhas, List.any_cons] at ih ⊢
        simp [ih]

theorem rhas_rset_mono {m : RMap} {q : Json} (k : Json) (v : List String)
    (h : rhas m q = true) : rhas (rset m k v) q = true := by
  induction m with
  | nil => simp [rhas] at h
  | cons p rest ih =>
      obtain ⟨k', v'⟩ := p
      simp only [rhas, List.any_cons, Bool.or_eq_true] at h
      by_cases hk : Json.beq k' k
      · simp only [rset, hk, if_true]
        simp only [rhas, List.any_cons, Bool.or_eq_true]
        rcases h with h | h
        · exact Or.inl h
        · exact Or.inr h
      · simp only [rset, hk, if_false, Bool.false_eq_true]
        simp only [rhas, List.any_cons, Bool.or_eq_true]
        rcases h with h | h
        · exact Or.inl h
        · exact Or.inr (ih h)

theorem rget_isSome_iff_rhas (m : RMap) (k : Json) :
    (rget m k).isSome = rhas m k := by
  induction m with
  | nil => simp [rget, rhas]
  | cons p rest ih =>
      obtain ⟨k', v'⟩ := p
      by_cases h : Json.beq k' k
      · simp [rget, rhas, h]
      · simp [rget, rhas, h, ih]

theorem rget_rset_same (m : RMap) (k : Json) (v : List String) :
    rget (rset m k v) k = some v := by
  induction m with
  | nil => simp [rget, rset, Json.beq_refl]
  | cons p rest ih =>
      obtain ⟨k', v'⟩ := p
      by_cases h : Json.beq k' k
      · simp [rget, rset, h]
      · simp [rget, rset, h, ih]

/-- Equality of a JSON value with a string key is genuine equality. -/
theorem Json.eq_str_of_beq {k : Json} {s : String}
    (h : Json.beq k (Json.str s) = true) : k = Json.str s := by
  cases k <;> simp_all [Json.beq]

theorem rget_rset_str_ne (m : RMap) {a b : String} (hab : a ≠ b)
    (v : List String) :
    rget (rset m (.str a) v) (.str b) = rget m (.str b) := by
  induction m with
  | nil =>
      simp only [rset, rget, Json.beq]
      simp [hab]
  | cons p rest ih =>
      obtain ⟨k', v'⟩ := p
      by_cases h : Json.beq k' (Json.str a)
      · have hk : k' = Json.str a := Json.eq_str_of_beq h
        subst hk
        have hb : Json.beq (Json.str a) (Json.str b) = false := by
          simp [Json.beq, hab]
        simp [rset, rget, h, hb, Json.beq_refl]
      · simp [rset, rget, h, ih]

/-- Every value stored by `rset` is either a previous value or the new
one. -/
theorem rset_values {P : List String → Prop} {m : RMap}
    (hm : ∀ p ∈ m, P p.2) {k : Json} {v : List String} (hv : P v) :
    ∀ p ∈ rset m k v, P p.2 := by
  induction m with
  | nil => simpa [rset] using hv
  | cons q rest ih =>
      obtain ⟨k', v'⟩ := q
      intro p hp
      by_cases h : Json.beq k' k
      · simp only [rset, h, if_true] at hp
        rcases List.mem_cons.mp hp with h1 | h1
        · simpa [h1] using hv
        · exact hm p (List.mem_cons_of_mem _ h1)
      · simp only [rset, h, if_false, Bool.false_eq_true] at hp
        rcases List.mem_cons.mp hp with h1 | h1
        · exact hm p (by simp [h1])
        · exact ih (fun q hq => hm q (List.mem_cons_of_mem _ hq)) p h1

/-! ### Truncation recovery: the claimed transformation -/

/-- The claim's cut condition on the text after the last `}`: it contains
a `{` with no `}` after that `{` (equivalently, its last `{` is followed
by no `}`). -/
def afterHasOpenWithNoCloseAfter (after : List Char) : Bool :=
  match lastIndexOfChar '\x7b' after with
  | some j => !((after.drop (j + 1)).contains '\x7d')
  | none => false

/-- The truncation-recovery transformation exactly as the claim states
it: count the four bracket characters; cut at the last `}` whenever the
text after it contains a `{` with no `}` after it; append the deficits. -/
def recoverSpec (cs : List Char) : List Char :=
  let openBraces := cs.count '\x7b'
  let closeBraces := cs.count '\x7d'
  let openBrackets := cs.count '['
  let closeBrackets := cs.count ']'
  let cs1 :=
    match lastIndexOfChar '\x7d' cs with
    | some i =>
        if afterHasOpenWithNoCloseAfter (cs.drop (i + 1)) then cs.take (i + 1)
        else cs
    | none => cs
  cs1 ++ List.replicate (openBrackets - closeBrackets) ']' ++
    List.replicate (openBraces - closeBraces) '\x7d'

/-- The amended transformation: as `recoverSpec`, but the cut additionally
requires the last `}` to sit at a positive index (the source's
`lastCompleteIdx > 0` guard). -/
def recoverSpecAmended (cs : List Char) : List Char :=
  let openBraces := cs.count '\x7b'
  let closeBraces := cs.count '\x7d'
  let openBrackets := cs.count '['
  let closeBrackets := cs.count ']'
  let cs1 :=
    match lastIndexOfChar '\x7d' cs with
    | some i =>
        if 0 < i ∧ afterHasOpenWithNoCloseAfter (cs.drop (i + 1)) then
          cs.take (i + 1)
        else cs
    | none => cs
  cs1 ++ List.replicate (openBrackets - closeBrackets) ']' ++
    List.replicate (openBraces - closeBraces) '\x7d'

theorem lastIndexOfChar_none_mem {c : Char} :
    ∀ {cs : List Char}, lastIndexOfChar c cs = none → c ∉ cs
  | [], _ => by simp
  | x :: xs, h => by
      simp only [lastIndexOfChar] at h
      rcases hx : lastIndexOfChar c xs with _ | i
      · rw [hx] at h
        by_cases hxc : x = c
        · simp [hxc] at h
        · have hxs := lastIndexOfChar_none_mem hx
          intro hmem
          rcases List.mem_cons.mp hmem with h1 | h1
          · exact hxc h1.symm
          · exact hxs h1
      · rw [hx] at h
        simp at h

theorem lastIndexOfChar_some_mem {c : Char} :
    ∀ {cs : List Char} {i : Nat}, lastIndexOfChar c cs = some i → c ∈ cs
  | x :: xs, i, h => by
      simp only [lastIndexOfChar] at h
      rcases hx : lastIndexOfChar c xs with _ | j
      · rw [hx] at h
        by_cases hxc : x = c
        · simp [hxc]
        · simp [hxc] at h
      · rw [hx] at h
        exact List.mem_cons_of_mem _ (lastIndexOfChar_some_mem hx)

theorem lastIndexOfChar_drop_not_mem {c : Char} :
    ∀ {cs : List Char} {i : Nat},
      lastIndexOfChar c cs = some i → c ∉ cs.drop (i + 1)
  | x :: xs, i, h => by
      simp only [lastIndexOfChar] at h
      rcases hx : lastIndexOfChar c xs with _ | j
      · rw [hx] at h
        by_cases hxc : x = c
        · simp only [hxc, if_true] at h
          obtain rfl : (0 : Nat) = i := Option.some.inj h
          simpa using lastIndexOfChar_none_mem hx
        · simp [hxc] at h
      · rw [hx] at h
        obtain rfl : j + 1 = i := Option.some.inj h
        simpa using lastIndexOfChar_drop_not_mem hx

theorem not_mem_drop {c : Char} {cs : List Char} (h : c ∉ cs) (k : Nat) :
    c ∉ cs.drop k :=
  fun hm => h (List.mem_of_mem_drop hm)

theorem afterHasOpen_iff {after : List Char} (hnc : '\x7d' ∉ after) :
    afterHasOpenWithNoCloseAfter after = true ↔ '\x7b' ∈ after := by
  unfold afterHasOpenWithNoCloseAfter
  rcases hob : lastIndexOfChar '\x7b' after with _ | j
  · simp only [Bool.false_eq_true, false_iff]
    exact lastIndexOfChar_none_mem hob
  · have hsub : '\x7d' ∉ after.drop (j + 1) := not_mem_drop hnc _
    simp [lastIndexOfChar_some_mem hob, hsub]

/-- The source recovery agrees with the amended claim formula on every
input. -/
theorem recoverTruncated_eq_amended (cs : List Char) :
    recoverTruncated cs = recoverSpecAmended cs := by
  unfold recoverTruncated recoverSpecAmended
  rcases hlast : lastIndexOfChar '\x7d' cs with _ | i
  · rfl
  · have hnc : '\x7d' ∉ cs.drop (i + 1) := lastIndexOfChar_drop_not_mem hlast
    have hcond := afterHasOpen_iff hnc
    by_cases hi : 0 < i
    · by_cases hmem : '\x7b' ∈ cs.drop (i + 1)
      · simp [hi, hnc, hmem, hcond.mpr hmem]
      · have hfalse : afterHasOpenWithNoCloseAfter (cs.drop (i + 1)) = false := by
          rcases Bool.eq_false_or_eq_true
            (afterHasOpenWithNoCloseAfter (cs.drop (i + 1))) with h | h
          · exact absurd (hcond.mp h) hmem
          · exact h
        simp [hi, hnc, hmem, hfalse]
    · simp [hi]

/-- C3 (amended: the cut at the last `}` additionally requires that `}`
to sit at a positive index, per the source's `lastCompleteIdx > 0`
guard): for every trimmed text that does not end with `}`, the string the
batch parser hands to `JSON.parse` is obtained by counting the four
bracket characters, cutting at the last `}` when it is at a positive
index and the text after it contains a `{` with no `}` after it, and
appending the bracket and brace deficits. -/
theorem c3_truncation_recovery_transform (cs : List Char)
    (h : cs.getLast? ≠ some '\x7d') :
    prepareJsonText cs = recoverSpecAmended cs := by
  unfold prepareJsonText
  rw [if_neg h]
  exact recoverTruncated_eq_amended cs

theorem c3_truncation_recovery_transform_witness :
    ("\x7b\"a\": [1").data.getLast? ≠ some '\x7d' ∧
      prepareJsonText ("\x7b\"a\": [1").data =
        recoverSpecAmended ("\x7b\"a\": [1").data :=
  ⟨by decide, c3_truncation_recovery_transform ("\x7b\"a\": [1").data (by decide)⟩

/-- C3 counterexample to the claim as stated: on the trimmed input `}{`
(which does not end in `}`), the claimed transformation cuts at the last
`}` (index 0) and produces `}`, but the code requires the last `}` to be
at a positive index and leaves the text as `}{`. -/
theorem c3_truncation_recovery_cex :
    ['\x7d', '\x7b'].getLast? ≠ some '\x7d' ∧
      prepareJsonText ['\x7d', '\x7b'] = ['\x7d', '\x7b'] ∧
      recoverSpec ['\x7d', '\x7b'] = ['\x7d'] ∧
      ['\x7d', '\x7b'] ≠ ['\x7d'] := by
  refine ⟨by decide, rfl, rfl, by decide⟩

/-! ### The single-item parser (C4, C10) -/

/-- The shape test of the single parser's happy path: `some cs` when
`JSON.parse` succeeds on the trimmed text and yields an object whose
`categories` field is an array. -/
def singleShape (text : String) : Option (List Json) :=
  match jsonParse (String.mk (jsTrimChars text.data)) with
  | some (.obj fs) =>
      match getField fs "categories" with
      | some (.arr cs) => some cs
      | _ => none
  | _ => none

theorem filterValidCats_nil (maxPerRepo : Nat) (cs : List Json) :
    filterValidCats [] maxPerRepo cs = [] := by
  unfold filterValidCats
  have h : cs.filterMap (fun c =>
      match c with
      | Json.str s =>
          if (validCategoryNames []).contains s then some s else none
      | _ => none) = ([] : List String) := by
    rw [List.filterMap_eq_nil_iff]
    intro a _
    cases a <;> simp [validCategoryNames]
  rw [h]
  simp

/-- C4 (amended: stated for a non-empty catalog; with an empty catalog
the function raises instead of returning — see C10 and the
counterexample): the single parser returns the default category with the
non-empty diagnostic reason exactly when JSON parsing fails or the parsed
value lacks a list-shaped `categories` field, and otherwise returns the
catalog-filtered, truncated names (substituting the single default
category when that filtered-truncated list is empty) with an empty
reason. -/
theorem c4_single_parser_contract (text : String) (c0 : Category)
    (crest : List Category) (maxPerRepo : Nat) :
    (singleShape text = none →
      parseClassifierResponse text (c0 :: crest) maxPerRepo =
        some ⟨[c0.name], "Parsing failed, using default category"⟩) ∧
    ("Parsing failed, using default category" ≠ "") ∧
    (∀ cs, singleShape text = some cs →
      parseClassifierResponse text (c0 :: crest) maxPerRepo =
        some ⟨if (filterValidCats (c0 :: crest) maxPerRepo cs).isEmpty then
                [c0.name]
              else filterValidCats (c0 :: crest) maxPerRepo cs, ""⟩) := by
  refine ⟨?_, by decide, ?_⟩
  · intro h
    unfold parseClassifierResponse
    unfold singleShape at h
    rcases hp : jsonParse (String.mk (jsTrimChars text.data)) with _ | parsed
    · rfl
    · rw [hp] at h
      cases parsed with
      | obj fs =>
          rcases hf : getField fs "categories" with _ | v
          · simp [hf]
          · cases v <;> simp_all [hf]
      | null => rfl
      | bool b => rfl
      | num m e => rfl
      | str s => rfl
      | arr xs => rfl
  · intro cs h
    unfold parseClassifierResponse
    unfold singleShape at h
    rcases hp : jsonParse (String.mk (jsTrimChars text.data)) with _ | parsed
    · rw [hp] at h
      simp at h
    · rw [hp] at h
      cases parsed with
      | obj fs =>
          rcases hf : getField fs "categories" with _ | v
          · simp_all [hf]
          · cases v with
            | arr cs' =>
                have hcs : cs' = cs := by simp_all [hf]
                subst hcs
                simp only [hf]
                by_cases he : (filterValidCats (c0 :: crest) maxPerRepo cs').isEmpty <;>
                  simp [he]
            | null => simp_all [hf]
            | bool b => simp_all [hf]
            | num m e => simp_all [hf]
            | str s => simp_all [hf]
            | obj gs => simp_all [hf]
      | null => simp at h
      | bool b => simp at h
      | num m e => simp at h
      | str s => simp at h
      | arr xs => simp at h

theorem c4_single_parser_contract_witness :
    parseClassifierResponse "x" [⟨"A", "", []⟩] 3 =
        some ⟨["A"], "Parsing failed, using default category"⟩ ∧
      parseClassifierResponse "\x7b\"categories\": [\"A\"]\x7d"
          [⟨"A", "", []⟩] 3 = some ⟨["A"], ""⟩ := by
  constructor
  · exact (c4_single_parser_contract "x" ⟨"A", "", []⟩ [] 3).1 (by rfl)
  · have h := (c4_single_parser_contract "\x7b\"categories\": [\"A\"]\x7d"
      ⟨"A", "", []⟩ [] 3).2.2 [Json.str "A"] (by rfl)
    rw [h]
    rfl

/-- C4 counterexample to the claim as stated over every catalog: with the
empty catalog and unparsable text the claim demands a returned
default-category result, but the function raises (modelled as `none`). -/
theorem c4_single_parser_contract_cex :
    parseClassifierResponse "x" [] 3 = none := rfl

/-- C10: with an empty category catalog the single-item parser raises on
every input (modelled as `none`): its success path substitutes
`categories[0].name` whenever the filtered list is empty — and with no
valid names the filtered list is always empty — and its catch handler
dereferences `categories[0]` as well; the batch form instead stays total
through its literal `"Lang: ETC"` fallback. -/
theorem c10_single_parser_empty_catalog (text : String) (maxPerRepo : Nat) :
    parseClassifierResponse text [] maxPerRepo = none ∧
      defaultCategory [] = "Lang: ETC" := by
  refine ⟨?_, rfl⟩
  unfold parseClassifierResponse
  rcases hp : jsonParse (String.mk (jsTrimChars text.data)) with _ | parsed
  · rfl
  · cases parsed with
    | obj fs =>
        rcases hf : getField fs "categories" with _ | v
        · simp [hf]
        · cases v <;> simp [hf, filterValidCats_nil]
    | null => rfl
    | bool b => rfl
    | num m e => rfl
    | str s => rfl
    | arr xs => rfl

/-! ### The batch parser postcondition (C1) -/

/-- The per-value part of the batch parser's postcondition: only
catalog-valid names, or exactly the default singleton, and at most
`maxPerRepo` entries. -/
def GoodVal (cats : List Category) (maxPerRepo : Nat) (v : List String) :
    Prop :=
  ((∀ n ∈ v, n ∈ validCategoryNames cats) ∨ v = [defaultCategory cats]) ∧
    v.length ≤ maxPerRepo

theorem mem_filterValidCats {cats : List Category} {maxPerRepo : Nat}
    {cs : List Json} {n : String} (h : n ∈ filterValidCats cats maxPerRepo cs) :
    n ∈ validCategoryNames cats := by
  unfold filterValidCats at h
  have h1 := List.mem_of_mem_take h
  rcases List.mem_filterMap.mp h1 with ⟨c, _, hc⟩
  cases c with
  | str s =>
      by_cases hs : (validCategoryNames cats).contains s
      · simp only [hs, if_true, Option.some.injEq] at hc
        subst hc
        simpa using hs
      · simp [hs] at hc
        exact hc.2 ▸ hc.1
  | null => simp at hc
  | bool b => simp at hc
  | num m e => simp at hc
  | arr xs => simp at hc
  | obj fs => simp at hc

theorem filterValidCats_length (cats : List Category) (maxPerRepo : Nat)
    (cs : List Json) :
    (filterValidCats cats maxPerRepo cs).length ≤ maxPerRepo := by
  unfold filterValidCats
  simpa using List.length_take_le maxPerRepo _

theorem goodVal_entry {cats : List Category} {maxPerRepo : Nat}
    (hmax : 1 ≤ maxPerRepo) (cs : List Json) :
    GoodVal cats maxPerRepo
      (if (filterValidCats cats maxPerRepo cs).isEmpty then
        [defaultCategory cats]
      else filterValidCats cats maxPerRepo cs) := by
  by_cases he : (filterValidCats cats maxPerRepo cs).isEmpty
  · simp only [he, if_true]
    exact ⟨Or.inr rfl, by simpa using hmax⟩
  · simp only [he, if_false, Bool.false_eq_true]
    exact ⟨Or.inl (fun n hn => mem_filterValidCats hn),
      filterValidCats_length cats maxPerRepo cs⟩

theorem goodVal_default {cats : List Category} {maxPerRepo : Nat}
    (hmax : 1 ≤ maxPerRepo) : GoodVal cats maxPerRepo [defaultCategory cats] :=
  ⟨Or.inr rfl, by simpa using hmax⟩

theorem mem_scanCats {cats : List Category} {maxPerRepo : Nat}
    {cap : String} {n : String} (h : n ∈ scanCats cats maxPerRepo cap) :
    n ∈ validCategoryNames cats := by
  unfold scanCats at h
  have h1 := List.mem_of_mem_take h
  have h2 := List.of_mem_filter h1
  simpa using h2

theorem goodVal_scanCats (cats : List Category) (maxPerRepo : Nat)
    (cap : String) : GoodVal cats maxPerRepo (scanCats cats maxPerRepo cap) :=
  ⟨Or.inl (fun n hn => mem_scanCats hn), by
    unfold scanCats
    simpa using List.length_take_le maxPerRepo _⟩

/-- The map carried by either outcome of the `try` block. -/
def exVal : Except RMap RMap → RMap
  | .ok m => m
  | .error m => m

theorem processEntries_good (cats : List Category) {maxPerRepo : Nat}
    (hmax : 1 ≤ maxPerRepo) :
    ∀ (rs : List Json) (acc : RMap),
      (∀ p ∈ acc, GoodVal cats maxPerRepo p.2) →
      ∀ p ∈ exVal (processEntries cats maxPerRepo rs acc),
        GoodVal cats maxPerRepo p.2 := by
  intro rs
  induction rs with
  | nil => intro acc hacc; simpa [processEntries, exVal] using hacc
  | cons j rest ih =>
      intro acc hacc
      cases j with
      | null => simpa [processEntries, exVal] using hacc
      | obj fs =>
          simp only [processEntries, Json.getF]
          rcases hid : getField fs "id" with _ | idv
          · exact ih acc hacc
          · by_cases ht : idv.truthy
            · simp only [ht, Bool.not_true, Bool.false_eq_true, if_false]
              rcases hcat : getField fs "categories" with _ | v
              · exact ih acc hacc
              · cases v with
                | arr cs =>
                    exact ih _ (rset_values hacc (goodVal_entry hmax cs))
                | null => exact ih acc hacc
                | bool b => exact ih acc hacc
                | num m e => exact ih acc hacc
                | str s => exact ih acc hacc
                | obj gs => exact ih acc hacc
            · simp only [Bool.not_eq_true] at ht
              simp only [ht, Bool.not_false, if_true]
              exact ih acc hacc
      | bool b => simpa only [processEntries, Json.getF] using ih acc hacc
      | num m e => simpa only [processEntries, Json.getF] using ih acc hacc
      | str s => simpa only [processEntries, Json.getF] using ih acc hacc
      | arr xs => simpa only [processEntries, Json.getF] using ih acc hacc

theorem applyScanMatches_good {cats : List Category} {maxPerRepo : Nat} :
    ∀ (ms : List (String × String)) (m : RMap),
      (∀ p ∈ m, GoodVal cats maxPerRepo p.2) →
      ∀ p ∈ applyScanMatches cats maxPerRepo ms m,
        GoodVal cats maxPerRepo p.2 := by
  intro ms
  induction ms with
  | nil => intro m hm; simpa [applyScanMatches] using hm
  | cons pr rest ih =>
      intro m hm
      obtain ⟨id, cap⟩ := pr
      simp only [applyScanMatches]
      by_cases hc :
          (!(scanCats cats maxPerRepo cap).isEmpty &&
            !rhas m (Json.str id)) = true
      · simp only [hc, if_true]
        exact ih _ (rset_values hm (goodVal_scanCats cats maxPerRepo cap))
      · simp only [hc, if_false, Bool.false_eq_true]
        exact ih m hm

theorem fillDefaults_good {cats : List Category} {maxPerRepo : Nat}
    (hmax : 1 ≤ maxPerRepo) :
    ∀ (repos : List String) (m : RMap),
      (∀ p ∈ m, GoodVal cats maxPerRepo p.2) →
      ∀ p ∈ fillDefaults repos cats m, GoodVal cats maxPerRepo p.2 := by
  intro repos
  induction repos with
  | nil => intro m hm; simpa [fillDefaults] using hm
  | cons r rest ih =>
      intro m hm
      simp only [fillDefaults, List.foldl_cons]
      by_cases hr : rhas m (Json.str r)
      · simp only [hr, if_true]
        exact ih m hm
      · simp only [hr, Bool.false_eq_true, if_false]
        exact ih _ (rset_values hm (goodVal_default hmax))

theorem rhas_fillDefaults_mono {q : Json} {cats : List Category} :
    ∀ (repos : List String) (m : RMap),
      rhas m q = true → rhas (fillDefaults repos cats m) q = true := by
  intro repos
  induction repos with
  | nil => intro m hm; simpa [fillDefaults] using hm
  | cons r rest ih =>
      intro m hm
      simp only [fillDefaults, List.foldl_cons]
      by_cases hr : rhas m (Json.str r)
      · simp only [hr, if_true]
        exact ih m hm
      · simp only [hr, Bool.false_eq_true, if_false]
        exact ih _ (rhas_rset_mono _ _ hm)

theorem fillDefaults_covers {cats : List Category} :
    ∀ (repos : List String) (m : RMap) (id : String), id ∈ repos →
      rhas (fillDefaults repos cats m) (Json.str id) = true := by
  intro repos
  induction repos with
  | nil => intro m id h; simp at h
  | cons r rest ih =>
      intro m id h
      simp only [fillDefaults, List.foldl_cons]
      rcases List.mem_cons.mp h with h1 | h1
      · subst h1
        by_cases hr : rhas m (Json.str id)
        · simp only [hr, if_true]
          exact rhas_fillDefaults_mono rest m hr
        · simp only [hr, Bool.false_eq_true, if_false]
          exact rhas_fillDefaults_mono rest _ (rhas_rset_self m _ _)
      · by_cases hr : rhas m (Json.str r)
        · simp only [hr, if_true]
          exact ih m id h1
        · simp only [hr, Bool.false_eq_true, if_false]
          exact ih _ id h1

/-- C1 (amended: requires `1 ≤ maxCategoriesPerRepo`, since the default
singleton inserted for uncovered identifiers has length 1): for every
input text, requested identifiers, catalog and positive
`maxCategoriesPerRepo`, the batch parser returns (it is total), its map
has an entry for every requested identifier, and every value either
contains only catalog names or is exactly the default singleton, with
length at most `maxCategoriesPerRepo`. -/
theorem c1_batch_parser_postcondition (text : String) (repos : List String)
    (cats : List Category) (maxPerRepo : Nat) (hmax : 1 ≤ maxPerRepo) :
    (∀ id ∈ repos,
      rhas (parseBatchClassifierResponse text repos cats maxPerRepo)
        (Json.str id) = true) ∧
    (∀ p ∈ parseBatchClassifierResponse text repos cats maxPerRepo,
      ((∀ n ∈ p.2, n ∈ validCategoryNames cats) ∨
          p.2 = [defaultCategory cats]) ∧ p.2.length ≤ maxPerRepo) := by
  have hscan : ∀ m0 : RMap, (∀ p ∈ m0, GoodVal cats maxPerRepo p.2) →
      (∀ id ∈ repos,
        rhas (scanPass text repos cats maxPerRepo m0) (Json.str id) = true) ∧
      (∀ p ∈ scanPass text repos cats maxPerRepo m0,
        GoodVal cats maxPerRepo p.2) := by
    intro m0 hm0
    unfold scanPass
    exact ⟨fun id hid => fillDefaults_covers repos _ id hid,
      fillDefaults_good hmax repos _ (applyScanMatches_good _ _ hm0)⟩
  unfold parseBatchClassifierResponse tryPass
  rcases hres : jsonResultsOf text with _ | rs
  · exact hscan [] (by simp)
  · rcases hpe : processEntries cats maxPerRepo rs [] with m0 | m0
    · have hm0 : ∀ p ∈ m0, GoodVal cats maxPerRepo p.2 := by
        have := processEntries_good cats hmax rs [] (by simp)
        rw [hpe] at this
        simpa [exVal] using this
      simp only [hpe]
      exact hscan m0 hm0
    · have hm0 : ∀ p ∈ m0, GoodVal cats maxPerRepo p.2 := by
        have := processEntries_good cats hmax rs [] (by simp)
        rw [hpe] at this
        simpa [exVal] using this
      simp only [hpe]
      exact ⟨fun id hid => fillDefaults_covers repos m0 id hid,
        fillDefaults_good hmax repos m0 hm0⟩

theorem c1_batch_parser_postcondition_witness :
    rhas (parseBatchClassifierResponse
        "\x7b\"results\": [\x7b\"id\": \"a\", \"categories\": [\"Lang: Python\"]\x7d]\x7d"
        ["a", "b"] [⟨"Lang: Python", "", []⟩] 3) (Json.str "a") = true ∧
      rhas (parseBatchClassifierResponse
        "\x7b\"results\": [\x7b\"id\": \"a\", \"categories\": [\"Lang: Python\"]\x7d]\x7d"
        ["a", "b"] [⟨"Lang: Python", "", []⟩] 3) (Json.str "b") = true :=
  ⟨(c1_batch_parser_postcondition _ ["a", "b"] [⟨"Lang: Python", "", []⟩] 3
      (by decide)).1 "a" (by decide),
    (c1_batch_parser_postcondition _ ["a", "b"] [⟨"Lang: Python", "", []⟩] 3
      (by decide)).1 "b" (by decide)⟩

/-- C1 counterexample to the claim as stated for every
`maxCategoriesPerRepo`: at `maxCategoriesPerRepo = 0` the requested
identifier still receives the default singleton, whose length 1 exceeds
the claimed bound 0. -/
theorem c1_batch_parser_postcondition_cex :
    rget (parseBatchClassifierResponse "x" ["a"] [⟨"Lang: Python", "", []⟩] 0)
        (Json.str "a") = some ["Lang: Python"] ∧
      ¬ (∀ p ∈ parseBatchClassifierResponse "x" ["a"]
            [⟨"Lang: Python", "", []⟩] 0, p.2.length ≤ 0) := by
  constructor
  · rfl
  · decide

/-! ### The pattern-scan fallback (C2) -/

/-- The first scan match for `id` whose filtered, truncated category list
is non-empty (the list that actually claims the identifier in the
fallback loop). -/
def firstScanHit (cats : List Category) (maxPerRepo : Nat) (id : String)
    (ms : List (String × String)) : Option (List String) :=
  ms.findSome? (fun pr =>
    if pr.1 = id ∧ (scanCats cats maxPerRepo pr.2).isEmpty = false then
      some (scanCats cats maxPerRepo pr.2)
    else none)

theorem rget_none_of_rhas_false {m : RMap} {k : Json}
    (h : rhas m k = false) : rget m k = none := by
  have := rget_isSome_iff_rhas m k
  rw [h] at this
  rcases hg : rget m k with _ | v
  · rfl
  · rw [hg] at this
    simp at this

theorem applyScanMatches_rget (cats : List Category) (maxPerRepo : Nat)
    (id : String) :
    ∀ (ms : List (String × String)) (m : RMap),
      rget (applyScanMatches cats maxPerRepo ms m) (Json.str id) =
        match rget m (Json.str id) with
        | some v => some v
        | none => firstScanHit cats maxPerRepo id ms := by
  intro ms
  induction ms with
  | nil =>
      intro m
      simp only [applyScanMatches, firstScanHit, List.findSome?_nil]
      rcases hg : rget m (Json.str id) with _ | v <;> rfl
  | cons pr rest ih =>
      intro m
      obtain ⟨mid, cap⟩ := pr
      simp only [applyScanMatches]
      by_cases hid : mid = id
      · subst hid
        by_cases hcs : (scanCats cats maxPerRepo cap).isEmpty
        · have hcond : (!(scanCats cats maxPerRepo cap).isEmpty &&
              !rhas m (Json.str mid)) = false := by simp [hcs]
          rw [hcond]
          simp only [Bool.false_eq_true, if_false]
          rw [ih m]
          rcases hg : rget m (Json.str mid) with _ | v
          · have hnil : scanCats cats maxPerRepo cap = [] :=
              List.isEmpty_iff.mp hcs
            simp [firstScanHit, List.findSome?_cons, hnil]
          · rfl
        · by_cases hh : rhas m (Json.str mid)
          · have hcond : (!(scanCats cats maxPerRepo cap).isEmpty &&
                !rhas m (Json.str mid)) = false := by simp [hh]
            rw [hcond]
            simp only [Bool.false_eq_true, if_false]
            rw [ih m]
            rcases hg : rget m (Json.str mid) with _ | v
            · have := rget_isSome_iff_rhas m (Json.str mid)
              rw [hg, hh] at this
              simp at this
            · rfl
          · have hh' : rhas m (Json.str mid) = false := by
              simpa using hh
            have hcond : (!(scanCats cats maxPerRepo cap).isEmpty &&
                !rhas m (Json.str mid)) = true := by simp [hcs, hh']
            rw [hcond]
            simp only [if_true]
            rw [ih _]
            rw [rget_rset_same]
            rw [rget_none_of_rhas_false hh']
            have hne : scanCats cats maxPerRepo cap ≠ [] := by
              intro hnil
              exact hcs (by simp [hnil])
            simp [firstScanHit, List.findSome?_cons, hne]
      · have hget : rget (if (!(scanCats cats maxPerRepo cap).isEmpty &&
            !rhas m (Json.str mid)) = true then
              rset m (Json.str mid) (scanCats cats maxPerRepo cap)
            else m) (Json.str id) = rget m (Json.str id) := by
          split
          · exact rget_rset_str_ne m hid _
          · rfl
        rw [ih _, hget]
        rcases hg : rget m (Json.str id) with _ | v
        · simp [firstScanHit, hid]
        · rfl

theorem fillDefaults_rget (cats : List Category) (id : String) :
    ∀ (repos : List String) (m : RMap),
      rget (fillDefaults repos cats m) (Json.str id) =
        match rget m (Json.str id) with
        | some v => some v
        | none =>
            if id ∈ repos then some [defaultCategory cats] else none := by
  intro repos
  induction repos with
  | nil =>
      intro m
      simp only [fillDefaults, List.foldl_nil]
      rcases hg : rget m (Json.str id) with _ | v <;> simp
  | cons r rest ih =>
      intro m
      simp only [fillDefaults, List.foldl_cons]
      by_cases hr : r = id
      · subst hr
        by_cases hh : rhas m (Json.str r)
        · simp only [hh, if_true]
          have ihm := ih m
          simp only [fillDefaults] at ihm
          rw [ihm]
          rcases hg : rget m (Json.str r) with _ | v
          · have := rget_isSome_iff_rhas m (Json.str r)
            rw [hg, hh] at this
            simp at this
          · rfl
        · have hh' : rhas m (Json.str r) = false := by simpa using hh
          simp only [hh', Bool.false_eq_true, if_false]
          have ihm := ih (rset m (Json.str r) [defaultCategory cats])
          simp only [fillDefaults] at ihm
          rw [ihm, rget_rset_same, rget_none_of_rhas_false hh']
          simp
      · have hget : rget (if rhas m (Json.str r) = true then m
            else rset m (Json.str r) [defaultCategory cats]) (Json.str id) =
            rget m (Json.str id) := by
          split
          · rfl
          · exact rget_rset_str_ne m hr _
        have ihm := ih (if rhas m (Json.str r) = true then m
          else rset m (Json.str r) [defaultCategory cats])
        simp only [fillDefaults] at ihm
        rw [ihm, hget]
        rcases hg : rget m (Json.str id) with _ | v
        · have hmem : (id ∈ r :: rest) ↔ (id ∈ rest) := by
            constructor
            · intro h
              rcases List.mem_cons.mp h with h1 | h1
              · exact absurd h1.symm hr
              · exact h1
            · exact fun h => List.mem_cons_of_mem _ h
          simp [hmem]
        · rfl

/-- C2 (amended: among the scan's matches for an identifier, the first
whose filtered-and-truncated category list is NON-EMPTY determines the
result — a match whose filtered list is empty does not claim the
identifier, so a later valid match can still win — and an identifier
already present in the partial map built before the JSON path raised is
never overwritten; requested identifiers still uncovered after the scan
get the single default-category entry): the catch path's result for any
identifier is fully characterised by the first non-empty filtered match. -/
theorem c2_scan_fallback_first_nonempty (text : String) (repos : List String)
    (cats : List Category) (maxPerRepo : Nat) (id : String) (m0 : RMap)
    (h : tryPass text repos cats maxPerRepo = .error m0) :
    rget (parseBatchClassifierResponse text repos cats maxPerRepo)
        (Json.str id) =
      match rget m0 (Json.str id) with
      | some v => some v
      | none =>
          match firstScanHit cats maxPerRepo id (scanMatches text) with
          | some cs => some cs
          | none => if id ∈ repos then some [defaultCategory cats] else none := by
  unfold parseBatchClassifierResponse
  simp only [h]
  unfold scanPass
  rw [fillDefaults_rget, applyScanMatches_rget]
  rcases hg : rget m0 (Json.str id) with _ | v
  · rcases hf : firstScanHit cats maxPerRepo id (scanMatches text) with _ | cs
    · rfl
    · rfl
  · rfl

theorem c2_scan_fallback_first_nonempty_witness :
    tryPass "x" ["a"] [⟨"Lang: Python", "", []⟩] 3 = .error [] ∧
      rget (parseBatchClassifierResponse "x" ["a"]
          [⟨"Lang: Python", "", []⟩] 3) (Json.str "a") =
        some ["Lang: Python"] := by
  constructor
  · rfl
  · have h := c2_scan_fallback_first_nonempty "x" ["a"]
      [⟨"Lang: Python", "", []⟩] 3 "a" [] rfl
    rw [h]
    rfl

/-- The catalog of the C2 counterexample: the default category is `B`,
and `A` is a distinct valid name. -/
def scanCexCats : List Category := [⟨"B", "", []⟩, ⟨"A", "", []⟩]

/-- The C2 counterexample text: invalid JSON containing two scan matches
for the identifier `r` — the first with only the invalid name `X`, the
second with the valid name `A`, separated by a `}` so the pattern cannot
span them. -/
def scanCexText : String :=
  "x \"id\": \"r\" \"categories\": [\"X\"] \x7d \"id\": \"r\" \"categories\": [\"A\"] \x7d"

/-- C2 counterexample to the claim as stated: the scan matches `r` twice;
the first match filters to the empty list, yet the result for `r` is the
second match's `["A"]` — neither the first match's filtered list (empty)
nor the default singleton `["B"]` — so the first match does not determine
the result and later matches are not ignored. -/
theorem c2_scan_fallback_first_nonempty_cex :
    (scanMatches scanCexText).map Prod.fst = ["r", "r"] ∧
      (scanMatches scanCexText).head? = some ("r", "\"X\"") ∧
      scanCats scanCexCats 3 "\"X\"" = [] ∧
      rget (parseBatchClassifierResponse scanCexText ["r"] scanCexCats 3)
          (Json.str "r") = some ["A"] ∧
      (["A"] : List String) ≠ [] ∧
      ["A"] ≠ [defaultCategory scanCexCats] := by
  refine ⟨by decide, by decide, by decide, by decide, by decide, by decide⟩

/-! ### Parsed entries outside the requested set (C9) -/

theorem processEntries_rhas_mono (cats : List Category) (maxPerRepo : Nat)
    (q : Json) :
    ∀ (rs : List Json) (acc : RMap), rhas acc q = true →
      rhas (exVal (processEntries cats maxPerRepo rs acc)) q = true := by
  intro rs
  induction rs with
  | nil => intro acc h; simpa [processEntries, exVal] using h
  | cons j rest ih =>
      intro acc h
      cases j with
      | null => simpa [processEntries, exVal] using h
      | obj fs =>
          simp only [processEntries, Json.getF]
          rcases hid : getField fs "id" with _ | idv
          · exact ih acc h
          · by_cases ht : idv.truthy
            · simp only [ht, Bool.not_true, Bool.false_eq_true, if_false]
              rcases hcat : getField fs "categories" with _ | v
              · exact ih acc h
              · cases v with
                | arr cs => exact ih _ (rhas_rset_mono _ _ h)
                | null => exact ih acc h
                | bool b => exact ih acc h
                | num m e => exact ih acc h
                | str s => exact ih acc h
                | obj gs => exact ih acc h
            · simp only [Bool.not_eq_true] at ht
              simp only [ht, Bool.not_false, if_true]
              exact ih acc h
      | bool b => simpa only [processEntries, Json.getF] using ih acc h
      | num m e => simpa only [processEntries, Json.getF] using ih acc h
      | str s => simpa only [processEntries, Json.getF] using ih acc h
      | arr xs => simpa only [processEntries, Json.getF] using ih acc h

theorem processEntries_covers (cats : List Category) (maxPerRepo : Nat)
    {idv : Json} {cs : List Json} :
    ∀ (rs : List Json) (acc : RMap) (m' : RMap) (j : Json),
      processEntries cats maxPerRepo rs acc = .ok m' → j ∈ rs →
      j.getF "id" = some idv → idv.truthy = true →
      j.getF "categories" = some (Json.arr cs) → rhas m' idv = true := by
  intro rs
  induction rs with
  | nil =>
      intro acc m' j _ hj _ _ _
      simp at hj
  | cons j0 rest ih =>
      intro acc m' j hpe hj hid ht hcs
      rcases List.mem_cons.mp hj with rfl | hjr
      · cases j with
        | obj fs =>
            simp only [Json.getF] at hid hcs
            simp only [processEntries, Json.getF, hid, ht, Bool.not_true,
              Bool.false_eq_true, if_false, hcs] at hpe
            have hmono := processEntries_rhas_mono cats maxPerRepo idv rest
              (rset acc idv
                (if (filterValidCats cats maxPerRepo cs).isEmpty then
                  [defaultCategory cats]
                else filterValidCats cats maxPerRepo cs))
              (rhas_rset_self acc idv _)
            rw [hpe] at hmono
            simpa [exVal] using hmono
        | null => simp [Json.getF] at hid
        | bool b => simp [Json.getF] at hid
        | num m e => simp [Json.getF] at hid
        | str s => simp [Json.getF] at hid
        | arr xs => simp [Json.getF] at hid
      · cases j0 with
        | null => simp [processEntries] at hpe
        | obj fs =>
            simp only [processEntries, Json.getF] at hpe
            rcases hid0 : getField fs "id" with _ | idv0
            · rw [hid0] at hpe
              exact ih acc m' j hpe hjr hid ht hcs
            · rw [hid0] at hpe
              by_cases ht0 : idv0.truthy
              · simp only [ht0, Bool.not_true, Bool.false_eq_true,
                  if_false] at hpe
                rcases hcat0 : getField fs "categories" with _ | v
                · rw [hcat0] at hpe
                  exact ih acc m' j hpe hjr hid ht hcs
                · rw [hcat0] at hpe
                  cases v with
                  | arr cs0 => exact ih _ m' j hpe hjr hid ht hcs
                  | null => exact ih acc m' j hpe hjr hid ht hcs
                  | bool b => exact ih acc m' j hpe hjr hid ht hcs
                  | num mm e => exact ih acc m' j hpe hjr hid ht hcs
                  | str s => exact ih acc m' j hpe hjr hid ht hcs
                  | obj gs => exact ih acc m' j hpe hjr hid ht hcs
              · simp only [Bool.not_eq_true] at ht0
                simp only [ht0, Bool.not_false, if_true] at hpe
                exact ih acc m' j hpe hjr hid ht hcs
        | bool b =>
            simp only [processEntries, Json.getF] at hpe
            exact ih acc m' j hpe hjr hid ht hcs
        | num mm e =>
            simp only [processEntries, Json.getF] at hpe
            exact ih acc m' j hpe hjr hid ht hcs
        | str s =>
            simp only [processEntries, Json.getF] at hpe
            exact ih acc m' j hpe hjr hid ht hcs
        | arr xs =>
            simp only [processEntries, Json.getF] at hpe
            exact ih acc m' j hpe hjr hid ht hcs

/-- C9: the batch parser's map is not restricted to the requested
identifiers — on a successful JSON path, every parsed `results` entry
with a truthy `id` and an array `categories` contributes an entry keyed
by that `id`, whether or not it is among the requested identifiers (the
witness exercises an identifier with an empty request list). -/
theorem c9_batch_parser_extra_ids (text : String) (repos : List String)
    (cats : List Category) (maxPerRepo : Nat) (rs : List Json) (m : RMap)
    (j : Json) (idv : Json) (cs : List Json)
    (hres : jsonResultsOf text = some rs)
    (hok : tryPass text repos cats maxPerRepo = .ok m)
    (hj : j ∈ rs)
    (hid : j.getF "id" = some idv)
    (ht : idv.truthy = true)
    (hcs : j.getF "categories" = some (Json.arr cs)) :
    rhas (parseBatchClassifierResponse text repos cats maxPerRepo) idv = true ∧
      rhas m idv = true := by
  have hpb : parseBatchClassifierResponse text repos cats maxPerRepo = m := by
    unfold parseBatchClassifierResponse
    simp only [hok]
  unfold tryPass at hok
  rw [hres] at hok
  rcases hpe : processEntries cats maxPerRepo rs [] with m0 | m0
  · simp only [hpe] at hok
    simp at hok
  · simp only [hpe] at hok
    have hm : m = fillDefaults repos cats m0 := by
      have := Except.ok.inj hok
      exact this.symm
    have hcov := processEntries_covers cats maxPerRepo rs [] m0 j hpe hj hid ht hcs
    have : rhas m idv = true := by
      rw [hm]
      exact rhas_fillDefaults_mono repos m0 hcov
    exact ⟨by rw [hpb]; exact this, this⟩

theorem c9_batch_parser_extra_ids_witness :
    rhas (parseBatchClassifierResponse
        "\x7b\"results\": [\x7b\"id\": \"x\", \"categories\": []\x7d]\x7d"
        [] [⟨"Lang: Python", "", []⟩] 3) (Json.str "x") = true :=
  (c9_batch_parser_extra_ids
    "\x7b\"results\": [\x7b\"id\": \"x\", \"categories\": []\x7d]\x7d"
    [] [⟨"Lang: Python", "", []⟩] 3
    [Json.obj [("id", Json.str "x"), ("categories", Json.arr [])]]
    [(Json.str "x", ["Lang: Python"])]
    (Json.obj [("id", Json.str "x"), ("categories", Json.arr [])])
    (Json.str "x") [] (by rfl) (by rfl) (List.mem_cons_self _ _) (by rfl)
    (by decide) (by rfl)).1

/-! ### Retry with backoff (C5, C6) -/

theorem retryGo_allfail {E A : Type} (op : Nat → Except E A) (p : RetryPolicy) :
    ∀ (rem k : Nat), (∀ t, t ≤ k + rem → (op t).isOk = false) →
      (retryGo op p k rem).1 = op (k + rem) ∧
        (retryGo op p k rem).2.1 = k + rem + 1 := by
  intro rem
  induction rem with
  | zero => intro k h; simp [retryGo]
  | succ rem ih =>
      intro k h
      have hk : (op k).isOk = false := h k (by omega)
      rcases hop : op k with e | a
      · have hrec := ih (k + 1) (fun t ht => h t (by omega))
        have harr : k + 1 + rem = k + (rem + 1) := by omega
        rw [harr] at hrec
        simp only [retryGo, hop]
        constructor
        · exact hrec.1
        · have := hrec.2
          omega
      · rw [hop] at hk
        simp [Except.isOk, Except.toBool] at hk

theorem retryGo_firstok {E A : Type} (op : Nat → Except E A) (p : RetryPolicy) :
    ∀ (rem k d : Nat) (a : A), d ≤ rem → op (k + d) = .ok a →
      (∀ i, i < d → (op (k + i)).isOk = false) →
      (retryGo op p k rem).1 = .ok a ∧ (retryGo op p k rem).2.1 = k + d + 1 := by
  intro rem
  induction rem with
  | zero =>
      intro k d a hd hop _
      have hd0 : d = 0 := by omega
      subst hd0
      simp only [Nat.add_zero] at hop
      simp [retryGo, hop]
  | succ rem ih =>
      intro k d a hd hop hpre
      cases d with
      | zero =>
          have hopk : op k = .ok a := by simpa using hop
          simp [retryGo, hopk]
      | succ d' =>
          have h0 : (op k).isOk = false := by simpa using hpre 0 (by omega)
          rcases hopk : op k with e | a'
          · have hop' : op (k + 1 + d') = .ok a := by
              rw [← hop]
              congr 1
              omega
            have hpre' : ∀ i, i < d' → (op (k + 1 + i)).isOk = false := by
              intro i hi
              have := hpre (i + 1) (by omega)
              have harr : k + (i + 1) = k + 1 + i := by omega
              rw [harr] at this
              exact this
            have hrec := ih (k + 1) d' a (by omega) hop' hpre'
            simp only [retryGo, hopk]
            refine ⟨hrec.1, ?_⟩
            have := hrec.2
            omega
          · rw [hopk] at h0
            simp [Except.isOk, Except.toBool] at h0

/-- C5: when every attempt fails, `retryWithBackoff` makes exactly
`maxRetries + 1` attempts and its outcome is the last attempt's error,
unchanged; when the first success happens at attempt `j` (0-indexed),
that result is returned and exactly `j + 1` attempts are made. -/
theorem c5_retry_attempts_and_last_error {E A : Type}
    (op : Nat → Except E A) (p : RetryPolicy) :
    ((∀ k, k ≤ p.maxRetries → (op k).isOk = false) →
      (retryWithBackoff op p).1 = op p.maxRetries ∧
        (retryWithBackoff op p).2.1 = p.maxRetries + 1) ∧
    (∀ j a, j ≤ p.maxRetries → op j = .ok a →
      (∀ i, i < j → (op i).isOk = false) →
      (retryWithBackoff op p).1 = .ok a ∧
        (retryWithBackoff op p).2.1 = j + 1) := by
  constructor
  · intro h
    have := retryGo_allfail op p p.maxRetries 0 (fun t ht => h t (by omega))
    simpa [retryWithBackoff] using this
  · intro j a hj hop hpre
    have := retryGo_firstok op p p.maxRetries 0 j a hj (by simpa using hop)
      (fun i hi => by simpa using hpre i hi)
    simpa [retryWithBackoff] using this

theorem c5_retry_attempts_and_last_error_witness :
    ((retryWithBackoff (fun k => (.error k : Except Nat Nat)) ⟨2, 10, 100⟩).1 =
        .error 2 ∧
      (retryWithBackoff (fun k => (.error k : Except Nat Nat))
        ⟨2, 10, 100⟩).2.1 = 3) ∧
    ((retryWithBackoff
        (fun k => if k < 2 then (.error 0 : Except Nat Nat) else .ok 7)
        ⟨3, 10, 100⟩).1 = .ok 7 ∧
      (retryWithBackoff
        (fun k => if k < 2 then (.error 0 : Except Nat Nat) else .ok 7)
        ⟨3, 10, 100⟩).2.1 = 3) := by
  constructor
  · exact (c5_retry_attempts_and_last_error
      (fun k => (.error k : Except Nat Nat)) ⟨2, 10, 100⟩).1
      (fun k _ => rfl)
  · exact (c5_retry_attempts_and_last_error
      (fun k => if k < 2 then (.error 0 : Except Nat Nat) else .ok 7)
      ⟨3, 10, 100⟩).2 2 7 (by decide) rfl (fun i hi => by
        simp [hi, Except.isOk, Except.toBool])

theorem retryGo_delays {E A : Type} (op : Nat → Except E A) (p : RetryPolicy) :
    ∀ (rem k : Nat), ∃ t, (retryGo op p k rem).2.2 =
      (List.range t).map (fun i => backoffDelay p (k + 1 + i)) := by
  intro rem
  induction rem with
  | zero => intro k; exact ⟨0, by simp [retryGo]⟩
  | succ rem ih =>
      intro k
      rcases hop : op k with e | a
      · obtain ⟨t, ht⟩ := ih (k + 1)
        refine ⟨t + 1, ?_⟩
        have hsplit : (List.range (t + 1)).map
            (fun i => backoffDelay p (k + 1 + i)) =
            backoffDelay p (k + 1) ::
              (List.range t).map (fun i => backoffDelay p (k + 1 + 1 + i)) := by
          rw [List.range_succ_eq_map]
          simp only [List.map_cons, Nat.add_zero, List.map_map]
          congr 1
          apply List.map_congr_left
          intro i _
          simp only [Function.comp]
          congr 1
          omega
        simp only [retryGo, hop]
        rw [ht, hsplit]
      · exact ⟨0, by simp [retryGo, hop]⟩

/-- C6: the delays waited by `retryWithBackoff` are, in order, exactly
`min(initialDelayMs * 2^(k-1), maxDelayMs)` for the `k`-th retry
(`k = i + 1` at list index `i`), form a non-decreasing sequence, and
never exceed `maxDelayMs`. -/
theorem c6_backoff_delay_formula {E A : Type} (op : Nat → Except E A)
    (p : RetryPolicy) :
    (retryWithBackoff op p).2.2 =
      (List.range (retryWithBackoff op p).2.2.length).map
        (fun i => min (p.initialDelayMs * 2 ^ i) p.maxDelayMs) ∧
    List.Chain' (fun a b => a ≤ b) (retryWithBackoff op p).2.2 ∧
    (retryWithBackoff op p).2.2.all
      (fun d => decide (d ≤ p.maxDelayMs)) = true := by
  obtain ⟨t, ht⟩ := retryGo_delays op p p.maxRetries 0
  have hds : (retryWithBackoff op p).2.2 =
      (List.range t).map (fun i => backoffDelay p (0 + 1 + i)) := ht
  have hfun : ∀ i : Nat,
      backoffDelay p (0 + 1 + i) = min (p.initialDelayMs * 2 ^ i) p.maxDelayMs := by
    intro i
    unfold backoffDelay
    have : 0 + 1 + i - 1 = i := by omega
    rw [this]
  have hmono : ∀ i j : Nat, i ≤ j →
      min (p.initialDelayMs * 2 ^ i) p.maxDelayMs ≤
        min (p.initialDelayMs * 2 ^ j) p.maxDelayMs := by
    intro i j hij
    exact min_le_min
      (Nat.mul_le_mul_left _ (Nat.pow_le_pow_right (by omega) hij))
      (le_refl _)
  refine ⟨?_, ?_, ?_⟩
  · rw [hds]
    simp only [List.length_map, List.length_range]
    apply List.map_congr_left
    intro i _
    exact hfun i
  · rw [hds]
    have hpw : (List.range t).Pairwise (· < ·) := List.pairwise_lt_range t
    have hpw2 : ((List.range t).map
        (fun i => backoffDelay p (0 + 1 + i))).Pairwise (· ≤ ·) := by
      rw [List.pairwise_map]
      exact hpw.imp (fun hab => by
        rw [hfun, hfun]
        exact hmono _ _ (le_of_lt hab))
    exact hpw2.chain'
  · rw [hds, List.all_eq_true]
    intro d hd
    rcases List.mem_map.mp hd with ⟨i, _, hi⟩
    subst hi
    rw [hfun]
    simpa using min_le_right _ _

/-! ### Concurrency runner (C7) -/

/-- One completion step: write the finished call's result into the slot
of its input index. -/
def slotStep {α β ε : Type} (items : List α) (worker : α → Except ε β)
    (s : List (Option β)) (j : Nat) : List (Option β) :=
  if h : j < items.length then
    s.set j ((worker (items.get ⟨j, h⟩)).toOption)
  else s

theorem cslots_ok {α β ε : Type} (items : List α) (worker : α → Except ε β)
    (hw : ∀ a ∈ items, (worker a).isOk = true) :
    ∀ (order : List Nat) (slots : List (Option β)) (calls : Nat),
      cslots items worker order slots calls =
        .ok (order.foldl (slotStep items worker) slots,
          calls + order.countP (fun j => decide (j < items.length))) := by
  intro order
  induction order with
  | nil => intro slots calls; simp [cslots]
  | cons j rest ih =>
      intro slots calls
      by_cases h : j < items.length
      · have hok := hw (items.get ⟨j, h⟩) (List.get_mem items j h)
        rcases hwo : worker (items.get ⟨j, h⟩) with e | b
        · rw [hwo] at hok
          simp [Except.isOk, Except.toBool] at hok
        · simp only [cslots, dif_pos h, hwo]
          rw [ih]
          have hstep : slotStep items worker slots j = slots.set j (some b) := by
            unfold slotStep
            rw [dif_pos h, hwo]
            rfl
          rw [List.foldl_cons, hstep]
          have hcnt : (j :: rest).countP (fun j => decide (j < items.length)) =
              rest.countP (fun j => decide (j < items.length)) + 1 := by
            rw [List.countP_cons]
            simp [h]
          rw [hcnt]
          congr 2
          omega
      · simp only [cslots, dif_neg h]
        rw [ih]
        have hstep : slotStep items worker slots j = slots := by
          unfold slotStep
          rw [dif_neg h]
        rw [List.foldl_cons, hstep]
        have hcnt : (j :: rest).countP (fun j => decide (j < items.length)) =
            rest.countP (fun j => decide (j < items.length)) := by
          rw [List.countP_cons]
          simp [h]
        rw [hcnt]

theorem slotStep_length {α β ε : Type} (items : List α)
    (worker : α → Except ε β) (s : List (Option β)) (j : Nat) :
    (slotStep items worker s j).length = s.length := by
  unfold slotStep
  split <;> simp

theorem foldl_slotStep_length {α β ε : Type} (items : List α)
    (worker : α → Except ε β) :
    ∀ (order : List Nat) (s : List (Option β)),
      (order.foldl (slotStep items worker) s).length = s.length := by
  intro order
  induction order with
  | nil => intro s; rfl
  | cons j rest ih =>
      intro s
      rw [List.foldl_cons, ih, slotStep_length]

theorem foldl_slotStep_get_not_mem {α β ε : Type} (items : List α)
    (worker : α → Except ε β) :
    ∀ (order : List Nat) (s : List (Option β)) (i : Nat), i ∉ order →
      (order.foldl (slotStep items worker) s)[i]? = s[i]? := by
  intro order
  induction order with
  | nil => intro s i _; rfl
  | cons j rest ih =>
      intro s i hi
      have hij : i ≠ j := fun h => hi (h ▸ List.mem_cons_self j rest)
      have hir : i ∉ rest := fun h => hi (List.mem_cons_of_mem _ h)
      rw [List.foldl_cons, ih _ _ hir]
      unfold slotStep
      split
      · exact List.getElem?_set_ne (fun h => hij h.symm)
      · rfl

theorem foldl_slotStep_get_mem {α β ε : Type} (items : List α)
    (worker : α → Except ε β) :
    ∀ (order : List Nat) (s : List (Option β)) (i : Nat)
      (hi : i < items.length), s.length = items.length → i ∈ order →
      (order.foldl (slotStep items worker) s)[i]? =
        some ((worker (items.get ⟨i, hi⟩)).toOption) := by
  intro order
  induction order with
  | nil => intro s i hi _ hmem; simp at hmem
  | cons j rest ih =>
      intro s i hi hs hmem
      rw [List.foldl_cons]
      by_cases hir : i ∈ rest
      · exact ih _ i hi (by rw [slotStep_length]; exact hs) hir
      · have hij : i = j := by
          rcases List.mem_cons.mp hmem with h | h
          · exact h
          · exact absurd h hir
        subst hij
        rw [foldl_slotStep_get_not_mem items worker rest _ i hir]
        unfold slotStep
        rw [dif_pos hi]
        rw [List.getElem?_set_self (by rw [hs]; exact hi)]

/-- C7 (spec-modelled): for every completion order (a permutation of the
input indices) and every worker that succeeds on all items,
`runWithConcurrency` produces the workers' results in input order —
slot `i` holds the result for `items[i]` regardless of which call
finished first — with exactly one worker call per item; for the empty
input it returns the empty slot list with zero worker calls. -/
theorem c7_run_with_concurrency_order {α β ε : Type} (items : List α)
    (worker : α → Except ε β) (limit : Nat) (order : List Nat)
    (hw : ∀ a ∈ items, (worker a).isOk = true)
    (hperm : order.Perm (List.range items.length)) :
    runWithConcurrency items worker limit order =
      .ok (items.map (fun a => (worker a).toOption), items.length) := by
  unfold runWithConcurrency
  rw [cslots_ok items worker hw order (List.replicate items.length none) 0]
  have hcount : order.countP (fun j => decide (j < items.length)) =
      items.length := by
    rw [hperm.countP_eq]
    have : ∀ a ∈ List.range items.length,
        (fun j => decide (j < items.length)) a = true := by
      intro a ha
      simpa using List.mem_range.mp ha
    rw [List.countP_eq_length.mpr this, List.length_range]
  have hslots : order.foldl (slotStep items worker)
      (List.replicate items.length none) =
      items.map (fun a => (worker a).toOption) := by
    apply List.ext_getElem?
    intro i
    by_cases hi : i < items.length
    · have hmem : i ∈ order := (hperm.mem_iff).2 (List.mem_range.mpr hi)
      rw [foldl_slotStep_get_mem items worker order _ i hi
        (List.length_replicate _ _) hmem]
      rw [List.getElem?_map, List.getElem?_eq_getElem hi]
      rfl
    · rw [List.getElem?_eq_none, List.getElem?_eq_none]
      · simpa using hi
      · rw [foldl_slotStep_length, List.length_replicate]
        omega
  rw [hslots, hcount]
  simp

theorem c7_run_with_concurrency_order_witness :
    runWithConcurrency [5, 1, 3, 2, 4]
        (fun n => (.ok (n * 2) : Except Unit Nat)) 5 [1, 3, 0, 2, 4] =
      .ok ([some 10, some 2, some 6, some 4, some 8], 5) ∧
    runWithConcurrency ([] : List Nat)
        (fun n => (.ok (n * 2) : Except Unit Nat)) 5 [] = .ok ([], 0) := by
  constructor
  · exact (c7_run_with_concurrency_order [5, 1, 3, 2, 4]
      (fun n => (.ok (n * 2) : Except Unit Nat)) 5 [1, 3, 0, 2, 4]
      (fun a _ => rfl) (by decide)).trans (by rfl)
  · exact (c7_run_with_concurrency_order []
      (fun n => (.ok (n * 2) : Except Unit Nat)) 5 []
      (fun a _ => rfl) (by decide)).trans (by rfl)

/-! ### Inter-batch pacing delays (C8) -/

theorem batchEvents_allok (ok : Nat → Bool) (hok : ∀ i, ok i = true)
    (T : Nat) :
    ((List.range (T + 1)).map (fun i =>
      if ok i then
        RunEvent.batch i ::
          (if i < (T + 1) - 1 then [RunEvent.delay] else [])
      else [RunEvent.batch i])).flatten =
      ((List.range T).map
        (fun i => [RunEvent.batch i, RunEvent.delay])).flatten ++
        [RunEvent.batch T] := by
  rw [List.range_succ, List.map_append, List.flatten_append]
  congr 1
  · congr 1
    apply List.map_congr_left
    intro i hi
    have h1 : i < T := List.mem_range.mp hi
    simp [hok i, h1]
  · simp [hok T]

theorem delayCount_pairs :
    ∀ l : List Nat,
      countDelays
        ((l.map (fun i => [RunEvent.batch i, RunEvent.delay])).flatten) =
        l.length := by
  intro l
  induction l with
  | nil => rfl
  | cons i rest ih =>
      simp only [List.map_cons, List.flatten_cons, countDelays,
        List.countP_append] at ih ⊢
      rw [ih]
      simp [List.countP_cons, RunEvent.isDelay]
      omega

/-- C8 (amended: assuming every batch's classification succeeds — on a
failed batch the loop `continue`s past the inter-batch delay, see the
counterexample): for a non-empty item list and positive batch size the
loop inserts exactly `ceil(n / batchSize) − 1` delays, and the run never
ends with a delay (no delay after the last batch). -/
theorem c8_batch_delay_count (n bs : Nat) (ok : Nat → Bool) (hn : 0 < n)
    (hbs : 0 < bs) (hok : ∀ i, ok i = true) :
    countDelays (classifyAndAddReposEvents n bs ok) = (n + bs - 1) / bs - 1 ∧
      (classifyAndAddReposEvents n bs ok).getLast? =
        some (RunEvent.batch ((n + bs - 1) / bs - 1)) := by
  have hT : 0 < totalBatches n bs := by
    unfold totalBatches
    have h1 : (1 : Nat) ≤ (n + bs - 1) / bs := by
      rw [Nat.le_div_iff_mul_le hbs]
      omega
    omega
  obtain ⟨T, hTeq⟩ : ∃ T, totalBatches n bs = T + 1 :=
    ⟨totalBatches n bs - 1, by omega⟩
  have hT' : (n + bs - 1) / bs - 1 = T := by
    have : totalBatches n bs = (n + bs - 1) / bs := rfl
    omega
  unfold classifyAndAddReposEvents
  rw [hTeq, hT']
  rw [batchEvents_allok ok hok T]
  constructor
  · unfold countDelays
    rw [List.countP_append]
    have := delayCount_pairs (List.range T)
    unfold countDelays at this
    rw [this]
    simp [RunEvent.isDelay, List.length_range]
  · exact List.getLast?_concat _

theorem c8_batch_delay_count_witness :
    countDelays (classifyAndAddReposEvents 5 2 (fun _ => true)) =
        (5 + 2 - 1) / 2 - 1 ∧
      (classifyAndAddReposEvents 5 2 (fun _ => true)).getLast? =
        some (RunEvent.batch ((5 + 2 - 1) / 2 - 1)) :=
  c8_batch_delay_count 5 2 (fun _ => true) (by decide) (by decide)
    (fun i => rfl)

/-- C8 counterexample to the claim as stated for every run: with 2 items,
batch size 1 and both batches failing classification, the loop's
`continue` skips the inter-batch delay, so 0 delays are inserted instead
of the claimed `ceil(2/1) − 1 = 1`. -/
theorem c8_batch_delay_count_cex :
    countDelays (classifyAndAddReposEvents 2 1 (fun _ => false)) = 0 ∧
      totalBatches 2 1 - 1 = 1 ∧ (0 : Nat) ≠ 1 := by
  refine ⟨by decide, by decide, by decide⟩

end Stardust
